import Mathlib

/-!
Verification development for the ContentAlchemist repository (`app.py`).

Strings are modelled as `List Char` (`Str`).  The external collaborators
(the Groq chat model behind `llm.invoke` and the Tavily search client) are
opaque network calls; they are modelled as function-valued parameters of an
environment record.  Everything else (the sanitizer `cleaner_tool`, the
prompt construction, the LangGraph-style nodes, the Streamlit button
handlers for "Begin Transmutation" and "Trigger Rewrite Tool", and the
story construction of `generate_pdf`) is translated directly from the
source.  Case-insensitive regex matching (`(?i)` on ASCII pattern
literals) is modelled with `Char.toLower`; Python's `str.strip()` is
modelled with the ASCII/latin whitespace characters it removes from the
arguments that actually occur here.
-/

namespace ContentAlchemist

/-- Strings as lists of characters. -/
abbrev Str := List Char

/-- Case-insensitive "the first argument is a prefix of the second",
comparing characters via `Char.toLower`.  This models where a Python regex
of the shape `(?i)LITERAL.*` (with `re.DOTALL`) can match: such a regex
matches at position `i` of a text exactly when LITERAL is a
case-insensitive prefix of the text from position `i` on. -/
def ciStarts : Str → Str → Bool
  | [], _ => true
  | _ :: _, [] => false
  | a :: as, b :: bs => (a.toLower == b.toLower) && ciStarts as bs

/-- Index of the first position at which `lit` occurs (case-insensitively)
in `s`, i.e. the start of the leftmost match of the regex `(?i)lit.*`. -/
def firstOcc (lit : Str) : Str → Option Nat
  | [] => if ciStarts lit [] then some 0 else none
  | c :: t =>
    if ciStarts lit (c :: t) then some 0
    else (firstOcc lit (t : Str)).map (· + 1)

/-- One `clean = re.split(p, clean, flags=re.DOTALL)[0]` step of
`cleaner_tool`: everything strictly before the first match of the pattern
(the pattern is `lit` followed by `.*`, so the first match starts at the
first case-insensitive occurrence of `lit`, and `[0]` of the split is the
text before it); the whole text when there is no match. -/
def truncAt (lit s : Str) : Str :=
  match firstOcc lit s with
  | some i => s.take i
  | none => s

/-- The literal parts of the four sanitizer regexes
`["(?i)I made the following.*", "(?i)Refined for clarity.*",
  "(?i)Note:.*", "(?i)Simplified sentence.*"]`, in source order. -/
def lit1 : Str := "I made the following".toList

def lit2 : Str := "Refined for clarity".toList

def lit3 : Str := "Note:".toList

def lit4 : Str := "Simplified sentence".toList

/-- The fixed pattern list of `cleaner_tool`, in source order. -/
def patterns : List Str := [lit1, lit2, lit3, lit4]

/-- Whitespace stripped by Python's `str.strip()` (restricted to the ASCII
whitespace characters). -/
def pySpace (c : Char) : Bool :=
  c == ' ' || c == '\t' || c == '\n' || c == '\r' || c == '\x0b' || c == '\x0c'

/-- Removal of leading whitespace (the left half of `str.strip()`). -/
def lstrip (s : Str) : Str := s.dropWhile pySpace

/-- Removal of trailing whitespace (the right half of `str.strip()`). -/
def rstrip (s : Str) : Str := (s.reverse.dropWhile pySpace).reverse

/-- Python's `str.strip()`. -/
def pyStrip (s : Str) : Str := rstrip (lstrip s)

/-- CLEANER: direct translation of `cleaner_tool` — the loop
`for p in patterns: clean = re.split(p, clean, flags=re.DOTALL)[0]`
followed by `clean.strip()`. -/
def cleaner_tool (content : Str) : Str :=
  pyStrip (patterns.foldl (fun clean p => truncAt p clean) content)

/-- Pattern `lit` occurs (case-insensitively) at position `i` of `s`. -/
def occursAt (lit s : Str) (i : Nat) : Prop :=
  ciStarts lit (s.drop i) = true

instance (lit s : Str) (i : Nat) : Decidable (occursAt lit s i) := by
  unfold occursAt; infer_instance

/-- Start of the earliest position in `s` at which any of the four
patterns matches. -/
def firstOccAny : Str → Option Nat
  | [] => none
  | c :: t =>
    if patterns.any (fun p => ciStarts p (c :: t)) then some 0
    else (firstOccAny (t : Str)).map (· + 1)

/-- Cut position produced by one `re.split(...)[0]` step, expressed as an
index into the ORIGINAL text `s`: if the pattern first occurs at `j` and
that occurrence fits inside the current cut `c`, the cut moves to `j`;
otherwise it stays at `c`. -/
def cutAt (lit s : Str) (c : Nat) : Nat :=
  match firstOcc lit s with
  | some j => if j + lit.length ≤ c then j else c
  | none => c

/-- The final cut position of `cleaner_tool` on `s`, before stripping. -/
def finalCut (s : Str) : Nat :=
  patterns.foldl (fun c p => cutAt p s c) s.length

/-- Two texts that both case-insensitively start a common text agree
case-insensitively on their common prefix. -/
def ciCompat : Str → Str → Bool
  | [], _ => true
  | _, [] => true
  | a :: as, b :: bs => (a.toLower == b.toLower) && ciCompat as bs

/-- No proper suffix of `b` is case-insensitively compatible with `a`:
an occurrence of `b` can then never straddle the start of an occurrence
of `a`. -/
def overlapFree (b a : Str) : Bool :=
  (List.range b.length).all fun d => d == 0 || ! ciCompat (b.drop d) a

/-- Invariant of the cut-fold: the current cut is either the full length
of `s` or an occurrence position of an already-processed pattern, and no
already-processed pattern occurs strictly before the cut. -/
def CutInv (processed : List Str) (s : Str) (c : Nat) : Prop :=
  (c = s.length ∨ ∃ p ∈ processed, occursAt p s c) ∧
  (∀ p ∈ processed, ∀ j, j < c → ¬ occursAt p s j)

/-- The heads of all four patterns lower-case to one of `i r n s`. -/
def patHeadOk (p : Str) : Bool :=
  match p with
  | [] => false
  | x :: _ =>
    (x.toLower == 'i') || (x.toLower == 'r') || (x.toLower == 'n') || (x.toLower == 's')

/-- The spec scenario input "Great content here.\nNote: I simplified the
tone." used as a witness input. -/
def exC1 : Str := "Great content here.\nNote: I simplified the tone.".toList

/-- A text in which the first-listed pattern "I made the following"
matches at index 12 but the later-listed pattern "Note:" matches earlier,
at index 4. -/
def exC3 : Str := "abc Note: x I made the following y".toList

/-! State model: the LangGraph `AgentState`, the tool wrappers, the nodes,
and the Streamlit button handlers.  The two external collaborators (the
chat model behind `llm.invoke` and the Tavily search client) are opaque
network calls, packaged as an `Env` of opaque functions. -/

/-- One Tavily search result (the two fields `research_tool` reads). -/
structure SearchResult where
  content : Str
  url : Str
deriving DecidableEq

/-- The opaque external collaborators: `llm.invoke` (prompt in, completion
out) and `tavily.search` (query in, ranked result list out). -/
structure Env where
  llm : Str → Str
  tavilySearch : Str → List SearchResult

/-- The `AgentState` TypedDict. -/
structure AgentState where
  topic : Str
  content_type : Str
  tone : Str
  notes : Str
  urls : List Str
  draft : Str
  review : Str
  feedback : Str
deriving DecidableEq

/-- The dict returned by `research_tool`. -/
structure ResearchOut where
  notes : Str
  urls : List Str
deriving DecidableEq

/-- RESEARCHER: `tavily.search(query=topic, ...)`, then
`notes = "\n".join([r['content'] for r in results])` and
`urls = [r['url'] for r in results]`. -/
def research_tool (env : Env) (topic : Str) : ResearchOut :=
  let results := env.tavilySearch topic
  { notes := List.intercalate ['\n'] (results.map SearchResult.content),
    urls := results.map SearchResult.url }

/-- The prompt built by `writer_tool` (two nested f-strings). -/
def writerPrompt (topic content_type notes tone feedback : Str) : Str :=
  "Draft content. No intro/outro/meta-talk. Just the content: Topic: ".toList
    ++ topic ++ "\nType: ".toList ++ content_type ++ "\nTone: ".toList ++ tone
    ++ "\nNotes: ".toList ++ notes ++ "\nFeedback: ".toList ++ feedback

/-- WRITER: one `llm.invoke` call on the writer prompt. -/
def writer_tool (env : Env) (topic content_type notes tone feedback : Str) : Str :=
  env.llm (writerPrompt topic content_type notes tone feedback)

/-- The prompt built by `reviewer_tool`. -/
def reviewPrompt (draft : Str) : Str :=
  "Critique this draft. Score 1-10 and list 3 strengths: ".toList ++ draft

/-- REVIEWER: one `llm.invoke` call on the review prompt. -/
def reviewer_tool (env : Env) (draft : Str) : Str :=
  env.llm (reviewPrompt draft)

/-- `research_node`: returns the update `{notes, urls}`; merging that
update into the state is modelled as a record update. -/
def research_node (env : Env) (state : AgentState) : AgentState :=
  let res := research_tool env state.topic
  { state with notes := res.notes, urls := res.urls }

/-- `writer_node`: calls the writer on the stored
topic/content_type/notes/tone/feedback, sanitizes the draft with
`cleaner_tool`, and returns the update `{draft}`. -/
def writer_node (env : Env) (state : AgentState) : AgentState :=
  let draft := writer_tool env state.topic state.content_type state.notes
    state.tone state.feedback
  let clean_draft := cleaner_tool draft
  { state with draft := clean_draft }

/-- `reviewer_node`: calls the reviewer on the stored draft and returns
the update `{review}`. -/
def reviewer_node (env : Env) (state : AgentState) : AgentState :=
  { state with review := reviewer_tool env state.draft }

/-- The `initial_state` dict built by the Begin Transmutation handler. -/
def initialState (topic content_type tone : Str) : AgentState :=
  { topic := topic, content_type := content_type, tone := tone,
    notes := [], urls := [], draft := [], review := [], feedback := [] }

/-- Begin Transmutation handler: research, then write, then review; the
merged dict `{**initial_state, **r_state, **w_state, **rev_state}` is the
sequential application of the three nodes. -/
def begin (env : Env) (topic content_type tone : Str) : AgentState :=
  reviewer_node env (writer_node env (research_node env
    (initialState topic content_type tone)))

/-- Trigger Rewrite Tool handler: store the feedback, re-run the writer
and the reviewer, and merge `{**upd_w, **upd_r}` into the state. -/
def rewrite (env : Env) (state : AgentState) (fb : Str) : AgentState :=
  let state1 := { state with feedback := fb }
  let upd_w := writer_node env state1
  let upd_r := reviewer_node env upd_w
  upd_r

/-- A full session: one Begin Transmutation run followed by any number of
rewrite cycles with the given feedback strings. -/
def runPipeline (env : Env) (topic content_type tone : Str) (fbs : List Str) :
    AgentState :=
  fbs.foldl (rewrite env) (begin env topic content_type tone)

/-- A concrete provider for the C7 scenario: two results with contents
"A", "B" and urls "u1", "u2". -/
def envC7 : Env :=
  { llm := fun s => s,
    tavilySearch := fun _ =>
      [{ content := "A".toList, url := "u1".toList },
       { content := "B".toList, url := "u2".toList }] }

/-! Fallible model for error-handling claims: an exception raised by a
collaborator call is modelled as `none`; the control flow after a `none`
mirrors the Python exception propagating out of the Streamlit handler. -/

/-- The collaborators, each able to fail. -/
structure EnvE where
  llm : Str → Option Str
  tavilySearch : Str → Option (List SearchResult)

def research_toolE (envE : EnvE) (topic : Str) : Option ResearchOut :=
  (envE.tavilySearch topic).map fun results =>
    { notes := List.intercalate ['\n'] (results.map SearchResult.content),
      urls := results.map SearchResult.url }

def writer_toolE (envE : EnvE) (topic content_type notes tone feedback : Str) :
    Option Str :=
  envE.llm (writerPrompt topic content_type notes tone feedback)

def reviewer_toolE (envE : EnvE) (draft : Str) : Option Str :=
  envE.llm (reviewPrompt draft)

/-- Begin Transmutation under failures: the handler builds the local
updates `r_state`/`w_state`/`rev_state` and assigns the merged state to
the session slot only at the very end, so an exception anywhere yields no
new state. -/
def beginE (envE : EnvE) (topic content_type tone : Str) : Option AgentState := do
  let s0 := initialState topic content_type tone
  let r ← research_toolE envE s0.topic
  let s1 : AgentState := { s0 with notes := r.notes, urls := r.urls }
  let d ← writer_toolE envE s1.topic s1.content_type s1.notes s1.tone s1.feedback
  let s2 : AgentState := { s1 with draft := cleaner_tool d }
  let rev ← reviewer_toolE envE s2.draft
  pure { s2 with review := rev }

/-- The session slot `st.session_state.agent_state` after the Begin
handler: on an exception the assignment at the end of the handler never
runs and the previous value stays. -/
def sessionAfterBegin (prev : Option AgentState) (envE : EnvE)
    (topic content_type tone : Str) : Option AgentState :=
  match beginE envE topic content_type tone with
  | none => prev
  | some st => some st

/-- Trigger Rewrite Tool under failures.  The handler mutates
`st.session_state.agent_state["feedback"] = fb` BEFORE invoking the
writer; the draft/review updates are merged only after both node calls
succeed.  Returns the resulting session state and whether the step
succeeded. -/
def rewriteE (envE : EnvE) (state : AgentState) (fb : Str) : AgentState × Bool :=
  let state1 := { state with feedback := fb }
  match writer_toolE envE state1.topic state1.content_type state1.notes
      state1.tone state1.feedback with
  | none => (state1, false)
  | some d =>
    let clean := cleaner_tool d
    match reviewer_toolE envE clean with
    | none => (state1, false)
    | some rev => ({ state1 with draft := clean, review := rev }, true)

/-- A collaborator environment in which every call fails. -/
def envFail : EnvE := { llm := fun _ => none, tavilySearch := fun _ => none }

/-- A populated session state before a rewrite attempt. -/
def stC8 : AgentState :=
  { topic := "t".toList, content_type := "Blog Post".toList,
    tone := "Formal Corporate".toList, notes := "n".toList,
    urls := ["u".toList], draft := "d".toList, review := "r".toList,
    feedback := "old".toList }

/-! Export model: the `story` list that `generate_pdf` builds and hands to
`doc.build(story)`.  The flowables carry the strings the source passes to
the layout library; the paginated binary rendering is the external layout
engine. -/

/-- The flowables appended to `story`. -/
inductive Flowable where
  | para (text : Str) (style : Str)
  | spacer (w h : Nat)
  | hrflow
deriving DecidableEq

/-- Python's `str.upper()` (ASCII). -/
def upperStr (s : Str) : Str := s.map Char.toUpper

/-- The markup `f"<b>{...}</b>"`. -/
def bTag (s : Str) : Str := "<b>".toList ++ s ++ "</b>".toList

/-- The markup around each source url. -/
def fontBlue (s : Str) : Str :=
  "<font color=\"blue\">".toList ++ s ++ "</font>".toList

/-- The story construction of `generate_pdf`: a bold upper-cased title in
the `Title` style and a spacer; then, for each segment of
`text.split('\n')` whose strip is non-empty, a `BodyText` paragraph (the
un-stripped segment) and a spacer — the for-loop's appends are the
concatenation of the per-segment blocks; then, if `urls` is non-empty, a
spacer, a grey horizontal rule, a spacer, a bold `VERIFIED SOURCES:`
heading in `Heading3`, and one blue-font `BodyText` paragraph per url. -/
def generate_pdf (text title : Str) (urls : List Str) : List Flowable :=
  [Flowable.para (bTag (upperStr title)) "Title".toList, Flowable.spacer 1 12]
    ++ List.flatten ((text.splitOn '\n').map fun para =>
        if (pyStrip para).isEmpty then []
        else [Flowable.para para "BodyText".toList, Flowable.spacer 1 6])
    ++ (if urls.isEmpty then []
        else [Flowable.spacer 1 20, Flowable.hrflow, Flowable.spacer 1 12,
              Flowable.para (bTag "VERIFIED SOURCES:".toList) "Heading3".toList]
          ++ urls.map fun url => Flowable.para (fontBlue url) "BodyText".toList)

def isHr : Flowable → Bool
  | Flowable.hrflow => true
  | _ => false

/-- The text of a `BodyText`-styled paragraph. -/
def bodyTextOf : Flowable → Option Str
  | Flowable.para t st => if st = "BodyText".toList then some t else none
  | _ => none

/-- The texts of the `BodyText` paragraphs before the horizontal rule: the
body paragraphs of the document. -/
def bodyParas (story : List Flowable) : List Str :=
  (story.takeWhile fun f => ! isHr f).filterMap bodyTextOf

/-- The texts of the `BodyText` paragraphs from the horizontal rule on:
the "Verified Sources" lines. -/
def sourceLines (story : List Flowable) : List Str :=
  (story.dropWhile fun f => ! isHr f).filterMap bodyTextOf

/-- Whether the story has a sources section (a horizontal rule). -/
def hasSources (story : List Flowable) : Bool := story.any isHr

/-! Theorems. -/

/-- A case-insensitive prefix is no longer than the text it starts. -/
theorem ciStarts_length_le : ∀ (lit t : Str), ciStarts lit t = true → lit.length ≤ t.length
  | [], _, _ => Nat.zero_le _
  | _ :: _, [], h => by simp [ciStarts] at h
  | a :: as, b :: bs, h => by
    simp only [ciStarts, Bool.and_eq_true] at h
    simpa using ciStarts_length_le as bs h.2

/-- Matching a pattern against a `take`: the pattern must match the full
text and fit inside the kept part. -/
theorem ciStarts_take :
    ∀ (lit t : Str) (n : Nat),
      ciStarts lit (t.take n) = true ↔ ciStarts lit t = true ∧ lit.length ≤ n
  | [], t, n => by simp [ciStarts]
  | a :: as, t, 0 => by simp [ciStarts]
  | a :: as, [], n => by simp [ciStarts]
  | a :: as, b :: bs, n + 1 => by
    simp only [List.take_succ_cons, ciStarts, Bool.and_eq_true, List.length_cons,
      ciStarts_take as bs n]
    constructor
    · rintro ⟨h1, h2, h3⟩
      exact ⟨⟨h1, h2⟩, Nat.succ_le_succ h3⟩
    · rintro ⟨⟨h1, h2⟩, h3⟩
      exact ⟨h1, h2, Nat.le_of_succ_le_succ h3⟩

theorem occursAt_zero (lit s : Str) : occursAt lit s 0 ↔ ciStarts lit s = true := by
  simp [occursAt]

theorem occursAt_succ_cons (lit : Str) (a : Char) (t : Str) (j : Nat) :
    occursAt lit (a :: t) (j + 1) ↔ occursAt lit t j := by
  simp [occursAt, List.drop_succ_cons]

/-- An occurrence of a non-empty pattern lies entirely inside the text. -/
theorem occursAt_bound {lit s : Str} {i : Nat} (hne : lit ≠ [])
    (h : occursAt lit s i) : i + lit.length ≤ s.length := by
  have hlen := ciStarts_length_le lit (s.drop i) h
  have hpos : 0 < lit.length := List.length_pos.mpr hne
  rw [List.length_drop] at hlen
  omega

/-- Soundness of `firstOcc`: a returned index is an occurrence. -/
theorem firstOcc_some_occurs {lit : Str} :
    ∀ {s : Str} {i : Nat}, firstOcc lit s = some i → occursAt lit s i := by
  intro s
  induction s with
  | nil =>
    intro i h
    simp only [firstOcc] at h
    split at h
    next hc => cases h; simpa [occursAt] using hc
    next => cases h
  | cons a t ih =>
    intro i h
    simp only [firstOcc] at h
    split at h
    next hc => cases h; simpa [occursAt] using hc
    next hc =>
      cases ho : firstOcc lit t with
      | none => rw [ho] at h; simp at h
      | some i' =>
        rw [ho] at h
        simp only [Option.map_some'] at h
        cases h
        exact (occursAt_succ_cons lit a t i').mpr (ih ho)

/-- Minimality of `firstOcc`: nothing occurs before the returned index. -/
theorem firstOcc_some_min {lit : Str} :
    ∀ {s : Str} {i : Nat}, firstOcc lit s = some i → ∀ j, j < i → ¬ occursAt lit s j := by
  intro s
  induction s with
  | nil =>
    intro i h j hj
    simp only [firstOcc] at h
    split at h
    next => cases h; omega
    next => cases h
  | cons a t ih =>
    intro i h j hj
    simp only [firstOcc] at h
    split at h
    next => cases h; omega
    next hc =>
      cases ho : firstOcc lit t with
      | none => rw [ho] at h; simp at h
      | some i' =>
        rw [ho] at h
        simp only [Option.map_some'] at h
        cases h
        cases j with
        | zero => simpa [occursAt_zero] using hc
        | succ j' =>
          rw [occursAt_succ_cons]
          exact ih ho j' (by omega)

/-- Completeness of `firstOcc`: if it returns `none`, nothing occurs. -/
theorem firstOcc_none {lit : Str} :
    ∀ {s : Str}, firstOcc lit s = none → ∀ j, ¬ occursAt lit s j := by
  intro s
  induction s with
  | nil =>
    intro h j
    simp only [firstOcc] at h
    split at h
    next => cases h
    next hc =>
      intro hocc
      rw [occursAt, List.drop_nil] at hocc
      simp [hocc] at hc
  | cons a t ih =>
    intro h j
    simp only [firstOcc] at h
    split at h
    next => cases h
    next hc =>
      cases ho : firstOcc lit t with
      | some i' => rw [ho] at h; simp at h
      | none =>
        intro hocc
        cases j with
        | zero => rw [occursAt_zero] at hocc; simp [hocc] at hc
        | succ j' => exact ih ho j' ((occursAt_succ_cons lit a t j').mp hocc)

/-- An occurrence forces `firstOcc` to return an index no larger. -/
theorem firstOcc_le_of_occurs {lit s : Str} {k : Nat} (h : occursAt lit s k) :
    ∃ i, firstOcc lit s = some i ∧ i ≤ k := by
  cases ho : firstOcc lit s with
  | none => exact absurd h (firstOcc_none ho k)
  | some i =>
    refine ⟨i, rfl, ?_⟩
    by_contra hk
    exact firstOcc_some_min ho k (by omega) h

/-- Occurrences in a `take`-prefix are exactly the occurrences of the full
text that fit within the kept part. -/
theorem occursAt_take {lit : Str} (hne : lit ≠ []) (s : Str) (n i : Nat) :
    occursAt lit (s.take n) i ↔ occursAt lit s i ∧ i + lit.length ≤ n := by
  have hpos : 0 < lit.length := List.length_pos.mpr hne
  have hdt : (s.take n).drop i = (s.drop i).take (n - i) := by
    rw [List.drop_take]
  rw [occursAt, hdt, ciStarts_take]
  unfold occursAt
  constructor
  · rintro ⟨h1, h2⟩
    exact ⟨h1, by omega⟩
  · rintro ⟨h1, h2⟩
    exact ⟨h1, by omega⟩

theorem firstOcc_take_none {lit : Str} (hne : lit ≠ []) {s : Str} (n : Nat)
    (h : firstOcc lit s = none) : firstOcc lit (s.take n) = none := by
  cases h' : firstOcc lit (s.take n) with
  | none => rfl
  | some i =>
    have := (occursAt_take hne s n i).mp (firstOcc_some_occurs h')
    exact absurd this.1 (firstOcc_none h i)

theorem firstOcc_take_some {lit : Str} (hne : lit ≠ []) {s : Str} {n j : Nat}
    (hj : firstOcc lit s = some j) (hn : j + lit.length ≤ n) :
    firstOcc lit (s.take n) = some j := by
  have hocc : occursAt lit (s.take n) j :=
    (occursAt_take hne s n j).mpr ⟨firstOcc_some_occurs hj, hn⟩
  obtain ⟨i, hi, hle⟩ := firstOcc_le_of_occurs hocc
  have hocc' := (occursAt_take hne s n i).mp (firstOcc_some_occurs hi)
  have : ¬ i < j := fun hlt => firstOcc_some_min hj i hlt hocc'.1
  have : i = j := by omega
  rw [hi, this]

theorem firstOcc_take_cut {lit : Str} (hne : lit ≠ []) {s : Str} {n j : Nat}
    (hj : firstOcc lit s = some j) (hn : ¬ j + lit.length ≤ n) :
    firstOcc lit (s.take n) = none := by
  cases h' : firstOcc lit (s.take n) with
  | none => rfl
  | some i =>
    have h2 := (occursAt_take hne s n i).mp (firstOcc_some_occurs h')
    have : ¬ i < j := fun hlt => firstOcc_some_min hj i hlt h2.1
    exfalso
    have h3 := h2.2
    omega

theorem cutAt_le {lit s : Str} {c : Nat} : cutAt lit s c ≤ c := by
  unfold cutAt
  cases firstOcc lit s with
  | none => exact Nat.le_refl c
  | some j =>
    dsimp only
    split
    next h =>
      have : 0 ≤ lit.length := Nat.zero_le _
      omega
    next => exact Nat.le_refl c

/-- One truncation step on a prefix of `s` is again a prefix of `s`, with
the cut given by `cutAt`. -/
theorem truncAt_take {lit : Str} (hne : lit ≠ []) (s : Str) (c : Nat) :
    truncAt lit (s.take c) = s.take (cutAt lit s c) := by
  have hpos : 0 < lit.length := List.length_pos.mpr hne
  unfold truncAt cutAt
  cases hj : firstOcc lit s with
  | none => rw [firstOcc_take_none hne c hj]
  | some j =>
    by_cases h : j + lit.length ≤ c
    · rw [firstOcc_take_some hne hj h]
      simp only [if_pos h]
      rw [List.take_take]
      congr 1
      omega
    · rw [firstOcc_take_cut hne hj h]
      simp only [if_neg h]

/-- The whole `for p in patterns` loop, run on a prefix of `s`, is the
prefix of `s` at the folded cut position. -/
theorem foldl_truncAt_take (s : Str) :
    ∀ (ps : List Str), (∀ p ∈ ps, p ≠ []) → ∀ c : Nat,
      ps.foldl (fun clean p => truncAt p clean) (s.take c)
        = s.take (ps.foldl (fun c p => cutAt p s c) c) := by
  intro ps
  induction ps with
  | nil => intro _ c; rfl
  | cons q ps ih =>
    intro hne c
    have hq : q ≠ [] := hne q (List.mem_cons_self q ps)
    have hps : ∀ p ∈ ps, p ≠ [] := fun p hp => hne p (List.mem_cons_of_mem q hp)
    simp only [List.foldl_cons]
    rw [truncAt_take hq s c, ih hps (cutAt q s c)]

theorem patterns_ne_nil : ∀ p ∈ patterns, p ≠ [] := by decide

/-- `cleaner_tool` is the strip of a prefix of its input: the loop's
result is `s.take (finalCut s)`. -/
theorem cleaner_tool_eq_take (s : Str) :
    cleaner_tool s = pyStrip (s.take (finalCut s)) := by
  unfold cleaner_tool finalCut
  congr 1
  have := foldl_truncAt_take s patterns patterns_ne_nil s.length
  rw [List.take_length] at this
  exact this

theorem ciCompat_of_ciStarts :
    ∀ (x y t : Str), ciStarts x t = true → ciStarts y t = true → ciCompat x y = true
  | [], _, _, _, _ => by simp [ciCompat]
  | _ :: _, [], _, _, _ => by simp [ciCompat]
  | a :: as, b :: bs, [], hx, _ => by simp [ciStarts] at hx
  | a :: as, b :: bs, c :: cs, hx, hy => by
    simp only [ciStarts, Bool.and_eq_true, beq_iff_eq] at hx hy
    simp only [ciCompat, Bool.and_eq_true, beq_iff_eq]
    exact ⟨hx.1.trans hy.1.symm, ciCompat_of_ciStarts as bs cs hx.2 hy.2⟩

theorem ciStarts_drop :
    ∀ (x t : Str) (d : Nat), ciStarts x t = true → ciStarts (x.drop d) (t.drop d) = true
  | x, t, 0, h => by simpa using h
  | [], t, d + 1, _ => by simp [ciStarts]
  | a :: as, [], d + 1, h => by simp [ciStarts] at h
  | a :: as, b :: bs, d + 1, h => by
    simp only [ciStarts, Bool.and_eq_true] at h
    simpa [List.drop_succ_cons] using ciStarts_drop as bs d h.2

/-- If an occurrence of `b` straddled position `c` (an occurrence of `a`),
the suffix of `b` from the straddle point on would be compatible with `a`;
`overlapFree` rules that out. -/
theorem no_straddle {b a s : Str} {j c : Nat} (hof : overlapFree b a = true)
    (hb : occursAt b s j) (ha : occursAt a s c) (h1 : j < c) (h2 : c < j + b.length) :
    False := by
  have hd : ciStarts (b.drop (c - j)) ((s.drop j).drop (c - j)) = true :=
    ciStarts_drop b (s.drop j) (c - j) hb
  rw [List.drop_drop] at hd
  have hjc : j + (c - j) = c := by omega
  rw [hjc] at hd
  have hcompat : ciCompat (b.drop (c - j)) a = true :=
    ciCompat_of_ciStarts _ _ _ hd ha
  have hmem : c - j ∈ List.range b.length := List.mem_range.mpr (by omega)
  have := List.all_eq_true.mp hof _ hmem
  simp only [Bool.or_eq_true, beq_iff_eq, Bool.not_eq_true'] at this
  rcases this with h | h
  · omega
  · rw [hcompat] at h
    cases h

theorem cutAt_inv {processed : List Str} {s : Str} {c : Nat} {q : Str}
    (hq : q ≠ []) (hOF : ∀ p ∈ processed, overlapFree q p = true)
    (hinv : CutInv processed s c) :
    CutInv (processed ++ [q]) s (cutAt q s c) := by
  have hqpos : 0 < q.length := List.length_pos.mpr hq
  unfold cutAt
  cases hj : firstOcc q s with
  | none =>
    refine ⟨?_, ?_⟩
    · rcases hinv.1 with h | ⟨p, hp, hocc⟩
      · exact Or.inl h
      · exact Or.inr ⟨p, List.mem_append_left _ hp, hocc⟩
    · intro p hp j hjc
      rcases List.mem_append.mp hp with hp | hp
      · exact hinv.2 p hp j hjc
      · rcases List.mem_singleton.mp hp with rfl
        exact firstOcc_none hj j
  | some j =>
    dsimp only
    by_cases h : j + q.length ≤ c
    · rw [if_pos h]
      have hjc : j < c := by omega
      refine ⟨Or.inr ⟨q, List.mem_append_right _ (List.mem_singleton.mpr rfl),
        firstOcc_some_occurs hj⟩, ?_⟩
      intro p hp j' hj'
      rcases List.mem_append.mp hp with hp | hp
      · exact hinv.2 p hp j' (by omega)
      · rcases List.mem_singleton.mp hp with rfl
        exact firstOcc_some_min hj j' hj'
    · rw [if_neg h]
      by_cases hjge : c ≤ j
      · refine ⟨?_, ?_⟩
        · rcases hinv.1 with h' | ⟨p, hp, hocc⟩
          · exact Or.inl h'
          · exact Or.inr ⟨p, List.mem_append_left _ hp, hocc⟩
        · intro p hp j' hj'
          rcases List.mem_append.mp hp with hp | hp
          · exact hinv.2 p hp j' hj'
          · rcases List.mem_singleton.mp hp with rfl
            exact firstOcc_some_min hj j' (by omega)
      · exfalso
        have hjlt : j < c := by omega
        have hoccj : occursAt q s j := firstOcc_some_occurs hj
        rcases hinv.1 with h' | ⟨p, hp, hocc⟩
        · have := occursAt_bound hq hoccj
          omega
        · exact no_straddle (hOF p hp) hoccj hocc hjlt (by omega)

theorem finalCut_inv (s : Str) : CutInv patterns s (finalCut s) := by
  have h0 : CutInv [] s s.length :=
    ⟨Or.inl rfl, fun p hp => absurd hp (List.not_mem_nil p)⟩
  have h1 := cutAt_inv (q := lit1) (by decide)
    (fun p hp => absurd hp (List.not_mem_nil p)) h0
  have h2 := cutAt_inv (q := lit2) (by decide)
    (by decide) h1
  have h3 := cutAt_inv (q := lit3) (by decide)
    (by decide) h2
  have h4 := cutAt_inv (q := lit4) (by decide)
    (by decide) h3
  simpa [finalCut, patterns, List.foldl] using h4

/-- If some pattern occurs in `s`, the final cut is itself an occurrence
position of some pattern. -/
theorem finalCut_occurs {s : Str} (h : ∃ p ∈ patterns, ∃ i, occursAt p s i) :
    ∃ p ∈ patterns, occursAt p s (finalCut s) := by
  rcases (finalCut_inv s).1 with hlen | hocc
  · exfalso
    rcases h with ⟨p, hp, i, hi⟩
    have hb := occursAt_bound (patterns_ne_nil p hp) hi
    have hlt : i < finalCut s := by
      rw [hlen]
      have := List.length_pos.mpr (patterns_ne_nil p hp)
      omega
    exact (finalCut_inv s).2 p hp i hlt hi
  · exact hocc

/-- No pattern occurs strictly before the final cut. -/
theorem finalCut_min (s : Str) :
    ∀ j, j < finalCut s → ∀ p ∈ patterns, ¬ occursAt p s j :=
  fun j hj p hp => (finalCut_inv s).2 p hp j hj

theorem foldl_truncAt_id {s : Str} :
    ∀ ps : List Str, (∀ p ∈ ps, firstOcc p s = none) →
      ps.foldl (fun clean p => truncAt p clean) s = s := by
  intro ps
  induction ps with
  | nil => intro _; rfl
  | cons q ps ih =>
    intro h
    have hq : truncAt q s = s := by
      unfold truncAt
      rw [h q (List.mem_cons_self q ps)]
    simp only [List.foldl_cons, hq]
    exact ih fun p hp => h p (List.mem_cons_of_mem q hp)

theorem firstOccAny_some {s : Str} :
    ∀ {c : Nat}, firstOccAny s = some c →
      (∃ p ∈ patterns, occursAt p s c) ∧
        ∀ j, j < c → ∀ p ∈ patterns, ¬ occursAt p s j := by
  induction s with
  | nil => intro c h; cases h
  | cons a t ih =>
    intro c h
    simp only [firstOccAny] at h
    split at h
    next hc =>
      cases h
      rcases List.any_eq_true.mp hc with ⟨p, hp, hps⟩
      exact ⟨⟨p, hp, (occursAt_zero p (a :: t)).mpr hps⟩, fun j hj => by omega⟩
    next hc =>
      cases ho : firstOccAny t with
      | none => rw [ho] at h; simp at h
      | some c' =>
        rw [ho] at h
        simp only [Option.map_some'] at h
        cases h
        obtain ⟨⟨p, hp, hocc⟩, hmin⟩ := ih ho
        refine ⟨⟨p, hp, (occursAt_succ_cons p a t c').mpr hocc⟩, ?_⟩
        intro j hj q hq
        cases j with
        | zero =>
          rw [occursAt_zero]
          intro habs
          exact hc (List.any_eq_true.mpr ⟨q, hq, habs⟩)
        | succ j' =>
          rw [occursAt_succ_cons]
          exact hmin j' (by omega) q hq

theorem firstOccAny_none {s : Str} :
    firstOccAny s = none → ∀ j, ∀ p ∈ patterns, ¬ occursAt p s j := by
  induction s with
  | nil =>
    intro _ j p hp
    rw [occursAt, List.drop_nil]
    intro habs
    have h1 := ciStarts_length_le p [] habs
    have h2 := List.length_pos.mpr (patterns_ne_nil p hp)
    simp only [List.length_nil] at h1
    omega
  | cons a t ih =>
    intro h j p hp
    simp only [firstOccAny] at h
    split at h
    next => cases h
    next hc =>
      cases ho : firstOccAny t with
      | some c' => rw [ho] at h; simp at h
      | none =>
        cases j with
        | zero =>
          rw [occursAt_zero]
          intro habs
          exact hc (List.any_eq_true.mpr ⟨p, hp, habs⟩)
        | succ j' =>
          rw [occursAt_succ_cons]
          exact ih ho j' p hp

/-- When no pattern matches anywhere, every split in the loop is a no-op
and `cleaner_tool` only strips the input. -/
theorem cleaner_tool_of_no_match {s : Str}
    (h : ∀ p ∈ patterns, firstOcc p s = none) : cleaner_tool s = pyStrip s := by
  unfold cleaner_tool
  rw [foldl_truncAt_id patterns h]

/-- When some pattern matches, the loop's result is the prefix of `s`
strictly before the earliest occurrence of any pattern. -/
theorem cleaner_tool_of_match {s : Str} {c : Nat} (h : firstOccAny s = some c) :
    cleaner_tool s = pyStrip (s.take c) := by
  rw [cleaner_tool_eq_take]
  obtain ⟨⟨p, hp, hocc⟩, hmin⟩ := firstOccAny_some h
  have hex : ∃ q ∈ patterns, ∃ i, occursAt q s i := ⟨p, hp, c, hocc⟩
  obtain ⟨p', hp', hocc'⟩ := finalCut_occurs hex
  have h1 : ¬ finalCut s < c := fun hlt => hmin (finalCut s) hlt p' hp' hocc'
  have h2 : ¬ c < finalCut s := fun hlt => finalCut_min s c hlt p hp hocc
  have : finalCut s = c := by omega
  rw [this]

theorem firstOccAny_none_of_no_occ {s : Str}
    (h : ∀ p ∈ patterns, firstOcc p s = none) : firstOccAny s = none := by
  cases ho : firstOccAny s with
  | none => rfl
  | some c =>
    obtain ⟨⟨p, hp, hocc⟩, _⟩ := firstOccAny_some ho
    exact absurd hocc (firstOcc_none (h p hp) c)

theorem firstOcc_none_of_any_none {s : Str}
    (h : firstOccAny s = none) : ∀ p ∈ patterns, firstOcc p s = none := by
  intro p hp
  cases ho : firstOcc p s with
  | none => rfl
  | some i =>
    exact absurd (firstOcc_some_occurs ho) (firstOccAny_none h i p hp)

theorem dropWhile_eq_drop (f : Char → Bool) :
    ∀ l : Str, l.dropWhile f = l.drop (l.takeWhile f).length
  | [] => rfl
  | a :: t => by
    cases h : f a <;>
      simp [List.dropWhile_cons, List.takeWhile_cons, h, dropWhile_eq_drop f t]

theorem lstrip_eq_drop (s : Str) :
    lstrip s = s.drop (s.takeWhile pySpace).length :=
  dropWhile_eq_drop pySpace s

theorem occursAt_drop {lit s : Str} {k i : Nat}
    (h : occursAt lit (s.drop k) i) : occursAt lit s (k + i) := by
  rw [occursAt, List.drop_drop] at h
  exact h

theorem prefix_eq_take {u x : Str} (h : u <+: x) : u = x.take u.length := by
  obtain ⟨t, rfl⟩ := h
  rw [List.take_left]

theorem rstrip_pref (x : Str) : rstrip x <+: x := by
  have h1 : x.reverse.dropWhile pySpace <:+ x.reverse := List.dropWhile_suffix pySpace
  have h2 := List.reverse_prefix.mpr h1
  rwa [List.reverse_reverse] at h2

theorem occursAt_of_pref {lit u x : Str} {i : Nat} (hne : lit ≠ [])
    (hp : u <+: x) (h : occursAt lit u i) : occursAt lit x i := by
  rw [prefix_eq_take hp] at h
  exact ((occursAt_take hne x u.length i).mp h).1

/-- The output of `cleaner_tool` contains no occurrence of any of the four
patterns. -/
theorem cleaner_tool_no_occ (s : Str) :
    ∀ p ∈ patterns, ∀ i, ¬ occursAt p (cleaner_tool s) i := by
  intro p hp i hocc
  have hne := patterns_ne_nil p hp
  have hpos := List.length_pos.mpr hne
  rw [cleaner_tool_eq_take] at hocc
  set y := s.take (finalCut s) with hy
  have h1 : occursAt p (lstrip y) i :=
    occursAt_of_pref hne (rstrip_pref (lstrip y)) hocc
  rw [lstrip_eq_drop] at h1
  have h2 : occursAt p y ((y.takeWhile pySpace).length + i) := occursAt_drop h1
  rw [hy] at h2
  have h3 := (occursAt_take hne s (finalCut s) _).mp h2
  exact finalCut_min s _ (by have := h3.2; omega) p hp h3.1

theorem head_lstrip : ∀ {x : Str} {a : Char} {r : Str},
    lstrip x = a :: r → pySpace a = false := by
  intro x
  induction x with
  | nil => intro a r h; cases h
  | cons b t ih =>
    intro a r h
    unfold lstrip at h
    rw [List.dropWhile_cons] at h
    split at h
    next => exact ih h
    next hb =>
      cases h
      simpa using hb

theorem rstrip_idem (x : Str) : rstrip (rstrip x) = rstrip x := by
  unfold rstrip
  rw [List.reverse_reverse, List.dropWhile_idempotent]

theorem pyStrip_idem (x : Str) : pyStrip (pyStrip x) = pyStrip x := by
  unfold pyStrip
  have hl : lstrip (rstrip (lstrip x)) = rstrip (lstrip x) := by
    cases hy : rstrip (lstrip x) with
    | nil => rfl
    | cons a r =>
      have hpref : rstrip (lstrip x) <+: lstrip x := rstrip_pref (lstrip x)
      rw [hy] at hpref
      obtain ⟨t, ht⟩ := hpref
      have hhead : pySpace a = false := head_lstrip (x := x) (by rw [← ht]; rfl)
      unfold lstrip
      rw [List.dropWhile_cons, hhead]
      simp
  rw [hl, rstrip_idem]

/-- The output of `cleaner_tool` is already stripped: stripping it again
changes nothing. -/
theorem cleaner_tool_stripped (s : Str) :
    pyStrip (cleaner_tool s) = cleaner_tool s := by
  rw [cleaner_tool_eq_take, pyStrip_idem]

theorem takeWhile_length_le_of_get (f : Char → Bool) :
    ∀ (l : Str) (k : Nat) (h : k < l.length), f (l.get ⟨k, h⟩) = false →
      (l.takeWhile f).length ≤ k := by
  intro l
  induction l with
  | nil => intro k h; simp at h
  | cons a t ih =>
    intro k h hf
    cases k with
    | zero =>
      rw [List.takeWhile_cons_of_neg (by simp [show f a = false from hf])]
      simp
    | succ k' =>
      cases hfa : f a
      · rw [List.takeWhile_cons_of_neg (by simp [hfa])]
        simp
      · rw [List.takeWhile_cons_of_pos hfa]
        simp only [List.length_cons]
        have := ih k' (by simpa using Nat.lt_of_succ_lt_succ h) hf
        omega

theorem takeWhile_take (f : Char → Bool) :
    ∀ (l : Str) (n : Nat), (l.take n).takeWhile f = (l.takeWhile f).take n := by
  intro l
  induction l with
  | nil => intro n; simp
  | cons a t ih =>
    intro n
    cases n with
    | zero => simp
    | succ n' =>
      rw [List.take_succ_cons]
      cases hfa : f a
      · rw [List.takeWhile_cons_of_neg (by simp [hfa]),
          List.takeWhile_cons_of_neg (by simp [hfa])]
        simp
      · rw [List.takeWhile_cons_of_pos hfa, List.takeWhile_cons_of_pos hfa,
          List.take_succ_cons, ih]

theorem length_dropWhile_eq (f : Char → Bool) (l : Str) :
    (l.dropWhile f).length = l.length - (l.takeWhile f).length := by
  have h := congrArg List.length (List.takeWhile_append_dropWhile (p := f) (l := l))
  rw [List.length_append] at h
  omega

theorem takeWhile_length_le (f : Char → Bool) (l : Str) :
    (l.takeWhile f).length ≤ l.length := by
  have h := congrArg List.length (List.takeWhile_append_dropWhile (p := f) (l := l))
  rw [List.length_append] at h
  omega

theorem rstrip_length_le (x : Str) : (rstrip x).length ≤ x.length := by
  unfold rstrip
  rw [List.length_reverse, length_dropWhile_eq, List.length_reverse]
  omega

theorem get_drop_add (l : Str) (k i : Nat) (h1 : i < (l.drop k).length)
    (h2 : k + i < l.length) : (l.drop k).get ⟨i, h1⟩ = l.get ⟨k + i, h2⟩ := by
  rw [List.get_eq_getElem, List.get_eq_getElem, List.getElem_drop]

theorem rstrip_length_lower (x : Str) (j : Nat) (h : j < x.length)
    (hns : pySpace (x.get ⟨j, h⟩) = false) : j + 1 ≤ (rstrip x).length := by
  unfold rstrip
  rw [List.length_reverse, length_dropWhile_eq, List.length_reverse]
  have hrev : x.length - 1 - j < x.reverse.length := by
    rw [List.length_reverse]; omega
  have hgr : x.reverse.get ⟨x.length - 1 - j, hrev⟩ = x.get ⟨j, h⟩ := by
    rw [List.get_eq_getElem, List.get_eq_getElem, List.getElem_reverse]
    congr 1
    show x.length - 1 - (x.length - 1 - j) = j
    omega
  have := takeWhile_length_le_of_get pySpace x.reverse (x.length - 1 - j) hrev
    (by rw [hgr]; exact hns)
  omega

/-- Cutting a text strictly before a non-whitespace character yields,
after stripping, something strictly shorter than the stripped text. -/
theorem pyStrip_take_length_lt {s : Str} {c : Nat} (hc : c < s.length)
    (hns : pySpace (s.get ⟨c, hc⟩) = false) :
    (pyStrip (s.take c)).length < (pyStrip s).length := by
  have hl : (s.takeWhile pySpace).length ≤ c :=
    takeWhile_length_le_of_get pySpace s c hc hns
  set L : Nat := (s.takeWhile pySpace).length with hL
  have hup : (pyStrip (s.take c)).length ≤ c - L := by
    unfold pyStrip
    have h1 := rstrip_length_le (lstrip (s.take c))
    have h2 : (lstrip (s.take c)).length = (s.take c).length - ((s.take c).takeWhile pySpace).length := by
      unfold lstrip
      exact length_dropWhile_eq pySpace (s.take c)
    rw [takeWhile_take] at h2
    rw [List.length_take, List.length_take] at h2
    omega
  have hlow : c - L + 1 ≤ (pyStrip s).length := by
    unfold pyStrip
    rw [lstrip_eq_drop, ← hL]
    have hd1 : c - L < (s.drop L).length := by
      rw [List.length_drop]; omega
    have hd2 : L + (c - L) < s.length := by omega
    have hg : (s.drop L).get ⟨c - L, hd1⟩ = s.get ⟨c, hc⟩ := by
      rw [get_drop_add s L (c - L) hd1 hd2]
      congr 1
      rw [Fin.mk_eq_mk]
      omega
    exact rstrip_length_lower (s.drop L) (c - L) hd1 (by rw [hg]; exact hns)
  omega

theorem patterns_head_ok : ∀ p ∈ patterns, patHeadOk p = true := by decide

theorem head_not_space {b : Char}
    (h : b.toLower = 'i' ∨ b.toLower = 'r' ∨ b.toLower = 'n' ∨ b.toLower = 's') :
    pySpace b = false := by
  cases hb : pySpace b
  · rfl
  · exfalso
    have hb' : ((((b = ' ' ∨ b = '\t') ∨ b = '\n') ∨ b = '\r') ∨ b = '\x0b') ∨ b = '\x0c' := by
      simpa [pySpace, Bool.or_eq_true, beq_iff_eq] using hb
    rcases hb' with ((((rfl | rfl) | rfl) | rfl) | rfl) | rfl <;>
      rcases h with h | h | h | h <;> exact absurd h (by decide)

/-- The character at an occurrence position of any pattern is not
whitespace. -/
theorem occursAt_head_not_space {p s : Str} {c : Nat} (hp : p ∈ patterns)
    (h : occursAt p s c) (hc : c < s.length) : pySpace (s.get ⟨c, hc⟩) = false := by
  have hok := patterns_head_ok p hp
  cases hpat : p with
  | nil => rw [hpat] at hok; cases hok
  | cons x rest =>
    rw [hpat] at h hok
    have hd : s.drop c = s.get ⟨c, hc⟩ :: s.drop (c + 1) := by
      rw [List.get_eq_getElem]
      exact List.drop_eq_getElem_cons hc
    rw [occursAt, hd] at h
    simp only [ciStarts, Bool.and_eq_true, beq_iff_eq] at h
    have heq : (s.get ⟨c, hc⟩).toLower = x.toLower := h.1.symm
    simp only [patHeadOk, Bool.or_eq_true, beq_iff_eq] at hok
    rw [← heq] at hok
    exact head_not_space (by tauto)

theorem lstrip_append_pref : ∀ (u t : Str), lstrip u <+: lstrip (u ++ t) := by
  intro u
  induction u with
  | nil => intro t; exact List.nil_prefix
  | cons a u' ih =>
    intro t
    unfold lstrip at ih ⊢
    rw [List.cons_append, List.dropWhile_cons, List.dropWhile_cons]
    cases ha : pySpace a
    · simp only [Bool.false_eq_true, if_false]
      exact List.prefix_append _ _
    · simp only [if_true]
      exact ih t

theorem lstrip_pref_mono {u v : Str} (h : u <+: v) : lstrip u <+: lstrip v := by
  obtain ⟨t, rfl⟩ := h
  exact lstrip_append_pref u t

theorem dropWhile_suffix_append : ∀ (w y : Str),
    y.dropWhile pySpace <:+ (w ++ y).dropWhile pySpace := by
  intro w
  induction w with
  | nil => intro y; exact List.suffix_refl _
  | cons a w' ih =>
    intro y
    rw [List.cons_append, List.dropWhile_cons]
    cases ha : pySpace a
    · simp only [Bool.false_eq_true, if_false]
      exact ((List.dropWhile_suffix pySpace).trans (List.suffix_append w' y)).trans
        (List.suffix_cons a (w' ++ y))
    · simp only [if_true]
      exact ih y

theorem rstrip_pref_mono {u v : Str} (h : u <+: v) : rstrip u <+: rstrip v := by
  obtain ⟨t, rfl⟩ := h
  unfold rstrip
  rw [List.reverse_append]
  have h1 : u.reverse.dropWhile pySpace <:+ (t.reverse ++ u.reverse).dropWhile pySpace :=
    dropWhile_suffix_append t.reverse u.reverse
  exact List.reverse_prefix.mpr h1

theorem pyStrip_pref_mono {u v : Str} (h : u <+: v) : pyStrip u <+: pyStrip v :=
  rstrip_pref_mono (lstrip_pref_mono h)

/-- C4: for every input text in which none of the four recognized
sanitizer patterns matches, `cleaner_tool` returns the input unchanged
except for removal of leading and trailing whitespace, i.e.
`sanitize(text) == text.strip()`. -/
theorem C4_cleaner_no_match_is_strip (s : Str)
    (h : ∀ p ∈ patterns, firstOcc p s = none) : cleaner_tool s = pyStrip s :=
  cleaner_tool_of_no_match h

theorem C4_witness :
    (∀ p ∈ patterns, firstOcc p "  hello world ".toList = none) ∧
      cleaner_tool "  hello world ".toList = pyStrip "  hello world ".toList :=
  ⟨by decide, C4_cleaner_no_match_is_strip _ (by decide)⟩

/-- C5: `cleaner_tool` is idempotent: for every input text `x`,
`sanitize(sanitize(x)) == sanitize(x)`. -/
theorem C5_cleaner_idempotent (x : Str) :
    cleaner_tool (cleaner_tool x) = cleaner_tool x := by
  have hno : ∀ p ∈ patterns, firstOcc p (cleaner_tool x) = none := by
    intro p hp
    cases ho : firstOcc p (cleaner_tool x) with
    | none => rfl
    | some i => exact absurd (firstOcc_some_occurs ho) (cleaner_tool_no_occ x p hp i)
  rw [cleaner_tool_of_no_match hno, cleaner_tool_stripped]

/-- C3 counterexample: on `exC3` the first pattern in the priority order
that matches anywhere is "I made the following" (pattern number one, first
match at index 12), yet the output of `cleaner_tool` is NOT everything
strictly before that match (neither raw nor stripped): the later-listed
pattern "Note:" truncated further, leaving only "abc". -/
theorem C3_counterexample :
    firstOcc lit1 exC3 = some 12 ∧
      cleaner_tool exC3 ≠ exC3.take 12 ∧
      cleaner_tool exC3 ≠ pyStrip (exC3.take 12) ∧
      cleaner_tool exC3 = "abc".toList :=
  ⟨by decide, by decide, by decide, by decide⟩

/-- C3 (amended): every pattern's split truncates the running text in
turn, so the truncation that survives a single `cleaner_tool` invocation
is at the EARLIEST position in the text where any of the four patterns
matches — not necessarily at the match of the first pattern in priority
order; the output is everything strictly before that earliest match,
stripped. -/
theorem C3_cleaner_earliest_match {s : Str} {c : Nat}
    (h : firstOccAny s = some c) :
    cleaner_tool s = pyStrip (s.take c) ∧
      (∃ p ∈ patterns, occursAt p s c) ∧
      ∀ j, j < c → ∀ p ∈ patterns, ¬ occursAt p s j :=
  ⟨cleaner_tool_of_match h, (firstOccAny_some h).1, (firstOccAny_some h).2⟩

theorem C3_witness :
    firstOccAny exC3 = some 4 ∧ cleaner_tool exC3 = pyStrip (exC3.take 4) :=
  ⟨by decide, (C3_cleaner_earliest_match (by decide)).1⟩

/-- C1: for every input text containing at least one occurrence of a
recognized meta-commentary phrase, the output of `cleaner_tool` is a
strict prefix of the input with leading/trailing whitespace removed, and
the output contains no occurrence of any of the four recognized
patterns. -/
theorem C1_cleaner_strict_prefix_and_clean (s : Str)
    (h : ∃ p ∈ patterns, ∃ i, occursAt p s i) :
    (∃ t : Str, cleaner_tool s ++ t = pyStrip s ∧ t ≠ []) ∧
      ∀ p ∈ patterns, ∀ i, ¬ occursAt p (cleaner_tool s) i := by
  refine ⟨?_, cleaner_tool_no_occ s⟩
  have hne : firstOccAny s ≠ none := by
    intro hnone
    obtain ⟨p, hp, i, hi⟩ := h
    exact firstOccAny_none hnone i p hp hi
  cases hfa : firstOccAny s with
  | none => exact absurd hfa hne
  | some c =>
    obtain ⟨⟨p, hp, hocc⟩, hmin⟩ := firstOccAny_some hfa
    have hpne := patterns_ne_nil p hp
    have hcb := occursAt_bound hpne hocc
    have hpos := List.length_pos.mpr hpne
    have hclt : c < s.length := by omega
    have hns := occursAt_head_not_space hp hocc hclt
    have hpref : pyStrip (s.take c) <+: pyStrip s :=
      pyStrip_pref_mono (List.take_prefix c s)
    have hlt : (pyStrip (s.take c)).length < (pyStrip s).length :=
      pyStrip_take_length_lt hclt hns
    rw [cleaner_tool_of_match hfa]
    obtain ⟨t, ht⟩ := hpref
    refine ⟨t, ht, ?_⟩
    intro hteq
    rw [hteq, List.append_nil] at ht
    rw [ht] at hlt
    omega

theorem C1_witness :
    (∃ p ∈ patterns, ∃ i, occursAt p exC1 i) ∧
      ((∃ t : Str, cleaner_tool exC1 ++ t = pyStrip exC1 ∧ t ≠ []) ∧
        ∀ p ∈ patterns, ∀ i, ¬ occursAt p (cleaner_tool exC1) i) :=
  ⟨⟨lit3, by decide, 20, by decide⟩,
   C1_cleaner_strict_prefix_and_clean exC1 ⟨lit3, by decide, 20, by decide⟩⟩

theorem foldl_rewrite_notes (env : Env) :
    ∀ (fbs : List Str) (st : AgentState),
      (fbs.foldl (rewrite env) st).notes = st.notes := by
  intro fbs
  induction fbs with
  | nil => intro st; rfl
  | cons fb fbs ih =>
    intro st
    rw [List.foldl_cons, ih]
    rfl

theorem foldl_rewrite_urls (env : Env) :
    ∀ (fbs : List Str) (st : AgentState),
      (fbs.foldl (rewrite env) st).urls = st.urls := by
  intro fbs
  induction fbs with
  | nil => intro st; rfl
  | cons fb fbs ih =>
    intro st
    rw [List.foldl_cons, ih]
    rfl

/-- C2: the rewrite operation leaves `notes` and `urls` unchanged, and
across any number of rewrite cycles they stay exactly the research output
for the stored topic — research is run only by the initial step. -/
theorem C2_rewrite_preserves_notes_urls (env : Env) (state : AgentState) (fb : Str)
    (topic content_type tone : Str) (fbs : List Str) :
    (rewrite env state fb).notes = state.notes ∧
    (rewrite env state fb).urls = state.urls ∧
    (runPipeline env topic content_type tone fbs).notes = (research_tool env topic).notes ∧
    (runPipeline env topic content_type tone fbs).urls = (research_tool env topic).urls := by
  refine ⟨rfl, rfl, ?_, ?_⟩
  · rw [runPipeline, foldl_rewrite_notes]
    rfl
  · rw [runPipeline, foldl_rewrite_urls]
    rfl

theorem foldl_rewrite_review (env : Env) :
    ∀ (fbs : List Str) (st : AgentState),
      st.review = reviewer_tool env st.draft →
      (fbs.foldl (rewrite env) st).review
        = reviewer_tool env (fbs.foldl (rewrite env) st).draft := by
  intro fbs
  induction fbs with
  | nil => intro st h; exact h
  | cons fb fbs ih =>
    intro st _
    rw [List.foldl_cons]
    exact ih (rewrite env st fb) rfl

/-- C6: rewriting with feedback `f` stores `f` in the feedback field,
makes the draft the sanitized output of a fresh writer call on the stored
topic/content_type/tone/notes with feedback `f`, and recomputes the review
from that new draft; after every operation (the initial run or any number
of rewrites) the review field describes the draft field currently
stored. -/
theorem C6_rewrite_consistency (env : Env) (state : AgentState) (fb : Str)
    (topic content_type tone : Str) (fbs : List Str) :
    (rewrite env state fb).feedback = fb ∧
    (rewrite env state fb).draft =
      cleaner_tool (writer_tool env state.topic state.content_type state.notes
        state.tone fb) ∧
    (rewrite env state fb).review = reviewer_tool env (rewrite env state fb).draft ∧
    (runPipeline env topic content_type tone fbs).review
      = reviewer_tool env (runPipeline env topic content_type tone fbs).draft := by
  refine ⟨rfl, rfl, rfl, ?_⟩
  rw [runPipeline]
  exact foldl_rewrite_review env fbs _ rfl

theorem foldl_rewrite_draft_sanitized (env : Env) :
    ∀ (fbs : List Str) (st : AgentState),
      (∃ w, st.draft = cleaner_tool w) →
      ∃ w, (fbs.foldl (rewrite env) st).draft = cleaner_tool w := by
  intro fbs
  induction fbs with
  | nil => intro st h; exact h
  | cons fb fbs ih =>
    intro st _
    rw [List.foldl_cons]
    exact ih (rewrite env st fb) ⟨_, rfl⟩

/-- C10: in every reachable state after the writer step has run (the
initial run followed by any number of rewrites), the stored draft is a
sanitizer output: it contains no occurrence of any of the four patterns
and equals its own stripped form — the raw model draft is never stored
unsanitized. -/
theorem C10_draft_always_sanitized (env : Env) (topic content_type tone : Str)
    (fbs : List Str) :
    (∀ p ∈ patterns, ∀ i,
        ¬ occursAt p (runPipeline env topic content_type tone fbs).draft i) ∧
      pyStrip (runPipeline env topic content_type tone fbs).draft
        = (runPipeline env topic content_type tone fbs).draft := by
  obtain ⟨w, hw⟩ := foldl_rewrite_draft_sanitized env fbs
    (begin env topic content_type tone) ⟨_, rfl⟩
  rw [runPipeline, hw]
  exact ⟨cleaner_tool_no_occ w, cleaner_tool_stripped w⟩

/-- C7: the research step produces notes equal to the search results'
content fields joined with single newlines in provider order, and urls
equal to the results' url fields in the same order; in particular, for
two results with contents "A","B" and urls "u1","u2" the notes are "A\nB"
and the urls ["u1","u2"]. -/
theorem C7_research_notes_urls (env : Env) (topic : Str) :
    (research_tool env topic).notes
        = List.intercalate ['\n'] ((env.tavilySearch topic).map SearchResult.content) ∧
    (research_tool env topic).urls = (env.tavilySearch topic).map SearchResult.url ∧
    (research_tool envC7 "AI in agriculture".toList).notes = "A\nB".toList ∧
    (research_tool envC7 "AI in agriculture".toList).urls
      = ["u1".toList, "u2".toList] :=
  ⟨rfl, rfl, by decide, by decide⟩

theorem rewriteE_fail (envE : EnvE) (state : AgentState) (fb : Str)
    (h : (rewriteE envE state fb).2 = false) :
    (rewriteE envE state fb).1 = { state with feedback := fb } := by
  cases hw : writer_toolE envE state.topic state.content_type state.notes
      state.tone fb with
  | none => simp [rewriteE, hw]
  | some d =>
    cases hr : reviewer_toolE envE (cleaner_tool d) with
    | none => simp [rewriteE, hw, hr]
    | some rev =>
      exfalso
      simp [rewriteE, hw, hr] at h

/-- C8 counterexample: with a failing writer, the rewrite step fails but
the session state HAS been partially mutated by the step — the feedback
field already holds the new value, contradicting "every field of the
state is exactly as it was before the failing step began". -/
theorem C8_counterexample :
    (rewriteE envFail stC8 "new".toList).2 = false ∧
      (rewriteE envFail stC8 "new".toList).1 ≠ stC8 ∧
      (rewriteE envFail stC8 "new".toList).1.feedback ≠ stC8.feedback :=
  ⟨by decide, by decide, by decide⟩

/-- C8 (amended): a failed initial run leaves the session slot untouched,
and a failed rewrite leaves draft, review, notes, urls, topic,
content_type and tone unchanged (draft/review are merged only after both
collaborator calls succeed) — but the feedback field is recorded before
the writer call and keeps the new value even when the step fails. -/
theorem C8_failure_atomicity (envE : EnvE) (prev : Option AgentState)
    (state : AgentState) (fb : Str) (topic content_type tone : Str) :
    (beginE envE topic content_type tone = none →
      sessionAfterBegin prev envE topic content_type tone = prev) ∧
    ((rewriteE envE state fb).2 = false →
      (rewriteE envE state fb).1.draft = state.draft ∧
      (rewriteE envE state fb).1.review = state.review ∧
      (rewriteE envE state fb).1.notes = state.notes ∧
      (rewriteE envE state fb).1.urls = state.urls ∧
      (rewriteE envE state fb).1.topic = state.topic ∧
      (rewriteE envE state fb).1.content_type = state.content_type ∧
      (rewriteE envE state fb).1.tone = state.tone ∧
      (rewriteE envE state fb).1.feedback = fb) := by
  constructor
  · intro h
    unfold sessionAfterBegin
    rw [h]
  · intro h
    rw [rewriteE_fail envE state fb h]
    exact ⟨rfl, rfl, rfl, rfl, rfl, rfl, rfl, rfl⟩

theorem C8_witness :
    beginE envFail [] [] [] = none ∧
      sessionAfterBegin (some stC8) envFail [] [] [] = some stC8 ∧
      (rewriteE envFail stC8 "new".toList).2 = false ∧
      (rewriteE envFail stC8 "new".toList).1.draft = stC8.draft ∧
      (rewriteE envFail stC8 "new".toList).1.feedback = "new".toList :=
  ⟨by decide,
   (C8_failure_atomicity envFail (some stC8) stC8 "new".toList [] [] []).1 (by decide),
   by decide,
   ((C8_failure_atomicity envFail (some stC8) stC8 "new".toList [] [] []).2
     (by decide)).1,
   ((C8_failure_atomicity envFail (some stC8) stC8 "new".toList [] [] []).2
     (by decide)).2.2.2.2.2.2.2⟩

theorem takeWhile_append_all {α : Type} (p : α → Bool) :
    ∀ (u v : List α), (∀ x ∈ u, p x = true) →
      (u ++ v).takeWhile p = u ++ v.takeWhile p := by
  intro u
  induction u with
  | nil => intro v _; rfl
  | cons a u' ih =>
    intro v h
    rw [List.cons_append,
      List.takeWhile_cons_of_pos (h a (List.mem_cons_self a u')),
      ih v (fun x hx => h x (List.mem_cons_of_mem a hx)), List.cons_append]

theorem dropWhile_append_all {α : Type} (p : α → Bool) :
    ∀ (u v : List α), (∀ x ∈ u, p x = true) →
      (u ++ v).dropWhile p = v.dropWhile p := by
  intro u
  induction u with
  | nil => intro v _; rfl
  | cons a u' ih =>
    intro v h
    rw [List.cons_append,
      List.dropWhile_cons_of_pos (h a (List.mem_cons_self a u')),
      ih v (fun x hx => h x (List.mem_cons_of_mem a hx))]

/-- The per-segment body blocks contain no horizontal rule. -/
theorem body_blocks_not_hr (text : Str) :
    ∀ x ∈ List.flatten ((text.splitOn '\n').map fun para =>
        if (pyStrip para).isEmpty then []
        else [Flowable.para para "BodyText".toList, Flowable.spacer 1 6]),
      (! isHr x) = true := by
  intro x hx
  rw [List.mem_flatten] at hx
  obtain ⟨l, hl, hxl⟩ := hx
  rw [List.mem_map] at hl
  obtain ⟨para, _, rfl⟩ := hl
  split at hxl
  next => cases hxl
  next =>
    rcases List.mem_cons.mp hxl with rfl | hxl
    · rfl
    · rcases List.mem_singleton.mp hxl with rfl
      rfl

/-- Extracting the body paragraphs from the per-segment blocks gives
exactly the non-blank segments, in order. -/
theorem filterMap_body_blocks : ∀ segs : List Str,
    (List.flatten (segs.map fun para =>
        if (pyStrip para).isEmpty then ([] : List Flowable)
        else [Flowable.para para "BodyText".toList,
          Flowable.spacer 1 6])).filterMap bodyTextOf
      = segs.filter fun p => ! (pyStrip p).isEmpty := by
  intro segs
  induction segs with
  | nil => rfl
  | cons p segs ih =>
    rw [List.map_cons, List.flatten_cons, List.filterMap_append, ih, List.filter_cons]
    by_cases hb : (pyStrip p).isEmpty
    · simp [hb, bodyTextOf]
    · simp [hb, bodyTextOf]

theorem filterMap_source_paras (urls : List Str) :
    (urls.map fun url =>
        Flowable.para (fontBlue url) "BodyText".toList).filterMap bodyTextOf
      = urls.map fontBlue := by
  induction urls with
  | nil => rfl
  | cons u urls ih =>
    rw [List.map_cons, List.filterMap_cons]
    have hb : bodyTextOf (Flowable.para (fontBlue u) "BodyText".toList)
        = some (fontBlue u) := by
      simp [bodyTextOf]
    rw [hb, ih, List.map_cons]

theorem bodyParas_append (u v : List Flowable) (hu : ∀ x ∈ u, (! isHr x) = true) :
    bodyParas (u ++ v) = u.filterMap bodyTextOf ++ bodyParas v := by
  unfold bodyParas
  rw [takeWhile_append_all _ u v hu, List.filterMap_append]

theorem sourceLines_append (u v : List Flowable) (hu : ∀ x ∈ u, (! isHr x) = true) :
    sourceLines (u ++ v) = sourceLines v := by
  unfold sourceLines
  rw [dropWhile_append_all _ u v hu]

theorem any_eq_false_of_all_not {α : Type} (p : α → Bool) (l : List α)
    (h : ∀ x ∈ l, (! p x) = true) : l.any p = false := by
  cases ha : l.any p
  · rfl
  · obtain ⟨x, hx, hpx⟩ := List.any_eq_true.mp ha
    have hnx := h x hx
    rw [hpx] at hnx
    cases hnx

theorem hasSources_append (u v : List Flowable) (hu : ∀ x ∈ u, (! isHr x) = true) :
    hasSources (u ++ v) = hasSources v := by
  unfold hasSources
  rw [List.any_append, any_eq_false_of_all_not isHr u hu, Bool.false_or]

theorem title_block_not_hr (title : Str) :
    ∀ x ∈ [Flowable.para (bTag (upperStr title)) "Title".toList,
      Flowable.spacer 1 12], (! isHr x) = true := by
  intro x hx
  rcases List.mem_cons.mp hx with rfl | hx
  · rfl
  · rcases List.mem_singleton.mp hx with rfl
    rfl

/-- C9 (amended): the story built by `generate_pdf` has the title heading,
one `BodyText` body paragraph per NON-BLANK newline-delimited segment of
the text in order (segments that are empty or whitespace-only are
skipped), and, exactly when the url list is non-empty, a "Verified
Sources" section after a horizontal rule with one line per url in
order. -/
theorem C9_generate_pdf_structure (text title : Str) (urls : List Str) :
    bodyParas (generate_pdf text title urls)
        = (text.splitOn '\n').filter (fun p => ! (pyStrip p).isEmpty) ∧
      sourceLines (generate_pdf text title urls) = urls.map fontBlue ∧
      (hasSources (generate_pdf text title urls) = true ↔ urls ≠ []) ∧
      bodyParas (generate_pdf "Para1\nPara2".toList "T".toList ["http://x".toList])
        = ["Para1".toList, "Para2".toList] ∧
      sourceLines (generate_pdf "Para1\nPara2".toList "T".toList ["http://x".toList])
        = [fontBlue "http://x".toList] := by
  have hA := title_block_not_hr title
  have hB := body_blocks_not_hr text
  unfold generate_pdf
  rw [List.append_assoc]
  cases urls with
  | nil =>
    rw [show (List.isEmpty ([] : List Str)) = true from rfl]
    simp only [if_true]
    refine ⟨?_, ?_, ?_, by decide, by decide⟩
    · rw [bodyParas_append _ _ hA, bodyParas_append _ _ hB]
      rw [show ([Flowable.para (bTag (upperStr title)) "Title".toList,
        Flowable.spacer 1 12] : List Flowable).filterMap bodyTextOf = [] from rfl]
      rw [filterMap_body_blocks]
      rw [show bodyParas [] = [] from rfl]
      rw [List.nil_append, List.append_nil]
    · rw [sourceLines_append _ _ hA, sourceLines_append _ _ hB]
      rfl
    · rw [hasSources_append _ _ hA, hasSources_append _ _ hB]
      simp [hasSources]
  | cons u us =>
    rw [show (List.isEmpty (u :: us)) = false from rfl]
    simp only [Bool.false_eq_true, if_false]
    refine ⟨?_, ?_, ?_, by decide, by decide⟩
    · rw [bodyParas_append _ _ hA, bodyParas_append _ _ hB]
      rw [show ([Flowable.para (bTag (upperStr title)) "Title".toList,
        Flowable.spacer 1 12] : List Flowable).filterMap bodyTextOf = [] from rfl]
      rw [filterMap_body_blocks]
      rw [show bodyParas ([Flowable.spacer 1 20, Flowable.hrflow, Flowable.spacer 1 12,
        Flowable.para (bTag "VERIFIED SOURCES:".toList) "Heading3".toList]
          ++ (u :: us).map fun url =>
            Flowable.para (fontBlue url) "BodyText".toList) = [] from rfl]
      rw [List.nil_append, List.append_nil]
    · rw [sourceLines_append _ _ hA, sourceLines_append _ _ hB]
      have h1 : (([Flowable.spacer 1 20, Flowable.hrflow, Flowable.spacer 1 12,
          Flowable.para (bTag "VERIFIED SOURCES:".toList) "Heading3".toList]
            ++ (u :: us).map fun url =>
              Flowable.para (fontBlue url) "BodyText".toList).dropWhile
                fun f => ! isHr f)
          = Flowable.hrflow :: Flowable.spacer 1 12 ::
              Flowable.para (bTag "VERIFIED SOURCES:".toList) "Heading3".toList ::
              (u :: us).map (fun url =>
                Flowable.para (fontBlue url) "BodyText".toList) := rfl
      unfold sourceLines
      rw [h1]
      rw [List.filterMap_cons_none (by rfl), List.filterMap_cons_none (by rfl),
        List.filterMap_cons_none (by decide)]
      exact filterMap_source_paras (u :: us)
    · rw [hasSources_append _ _ hA, hasSources_append _ _ hB]
      constructor
      · intro _
        exact List.cons_ne_nil u us
      · intro _
        rfl

/-- C9 counterexample: for text "A\n\nB" (three newline-delimited
segments, one of them blank) the story contains only two body paragraphs,
not one per segment: the blank segment produces no paragraph block. -/
theorem C9_counterexample :
    bodyParas (generate_pdf "A\n\nB".toList "T".toList ["u".toList])
        = ["A".toList, "B".toList] ∧
      ("A\n\nB".toList.splitOn '\n').length = 3 ∧
      (bodyParas (generate_pdf "A\n\nB".toList "T".toList ["u".toList])).length
        ≠ ("A\n\nB".toList.splitOn '\n').length := by
  refine ⟨by decide, by decide, by decide⟩

end ContentAlchemist
